import Mathlib

/-!
Verification development for the W3C design-tokens skill validator.

The repository ships two variants of a JSON-schema validation CLI:

* the glob-based variant (src/packages/skill/src/validate.ts), which
  discovers `*.tokens.json` / `*.resolver.json` files and validates each;
* the single-file variant (the bundled script, src/unnamed/part_000, and
  its TypeScript source, src/unnamed/part_001), which validates one file
  given on the command line.

Both variants share a schema loader with a process-wide cache
(loadSchema), a recursive external-reference resolver
(loadReferencedSchemas) and a per-file validation step (validateFile).
This file gives a shallow embedding of that orchestration logic: JSON
documents become an inductive type, the filesystem becomes an explicit
association list from resolved path to parsed document, the mutable
schema cache and the validation engine's registry become explicit state
threaded through the functions, and the `await`-based recursion of
loadReferencedSchemas becomes a fuel-indexed total function whose fuel
is computed up front from the sizes of the reachable documents.
External collaborators (the path library, the WHATWG URL parser and the
ajv engine's addSchema/getSchema registry) are modelled by small
functions documented at their definitions.
-/

/-- Parsed JSON value, the result of a successful JSON.parse. Objects are
association lists in document order; JSON.parse yields unique keys. -/
inductive Json where
  | null
  | bool (b : Bool)
  | num (n : Int)
  | str (s : String)
  | arr (xs : List Json)
  | obj (fields : List (String × Json))

/-- First-match lookup in an association list keyed by strings, the
semantics of both JavaScript object property access and Map.get for the
maps used here (keys are never overwritten). -/
def alookup {α : Type} : List (String × α) → String → Option α
  | [], _ => none
  | (p, v) :: rest, k => if p = k then some v else alookup rest k

/-- Key-membership test, the semantics of Map.has. -/
def ahasKey {α : Type} (m : List (String × α)) (k : String) : Bool :=
  (alookup m k).isSome

/-- Property access `obj[k]` on a JSON value: a field lookup on objects,
undefined on everything else. -/
def jsonField : Json → String → Option Json
  | .obj flds, k => alookup flds k
  | _, _ => none

/-- Boolean prefix test on character lists. -/
def isPre : List Char → List Char → Bool
  | [], _ => true
  | _ :: _, [] => false
  | a :: as, b :: bs => a == b && isPre as bs

/-- Model of JavaScript String.startsWith. -/
def strStartsWith (s pat : String) : Bool :=
  isPre pat.data s.data

/-- Model of JavaScript String.includes for a one-character needle (the
only shape used in the source: `$ref.includes("#")`). -/
def strContainsChar (s : String) (c : Char) : Bool :=
  s.data.contains c

/-- Model of JavaScript String.endsWith (used only through the path
library model below). -/
def strEndsWith (s pat : String) : Bool :=
  isPre pat.data.reverse s.data.reverse

/-- Remainder of a character list after the first occurrence of a
pattern, or none when the pattern does not occur. -/
def afterFirst (pat : List Char) : List Char → Option (List Char)
  | [] => if isPre pat [] then some ([].drop pat.length) else none
  | a :: rest =>
    if isPre pat (a :: rest) then some ((a :: rest).drop pat.length)
    else afterFirst pat rest

/-- Split a character list at every occurrence of a separator character,
the semantics of JavaScript String.split with a one-character separator. -/
def splitChar : List Char → Char → List (List Char)
  | [], _ => [[]]
  | a :: as, c =>
    let r := splitChar as c
    if a == c then [] :: r
    else
      match r with
      | h :: t => (a :: h) :: t
      | [] => [[a]]

/-- Model of `new URL(uri).pathname` for `scheme://host/seg/.../seg`
strings: everything from the first slash after the authority, or "/"
when the authority is not followed by a path. Query and fragment parts
are not modelled; the schema URLs consumed here carry neither. A string
without "://" is returned unchanged (the source only calls this on
strings that start with http:// or https://). -/
def urlPathname (uri : String) : String :=
  match afterFirst "://".data uri.data with
  | none => uri
  | some rest =>
    match splitChar rest '/' with
    | [] => "/"
    | _host :: segs =>
      String.mk ('/' :: List.intercalate ['/'] segs)

/-- Model of `path.split("/").pop()`: the final "/"-separated segment. -/
def lastSegment (p : String) : String :=
  String.mk ((splitChar p.data '/').getLastD [])

/-- Model of Node's path.join for the two-argument POSIX calls made by
the source: concatenation with exactly one separating slash. "." and
".." segments are not normalised; no path in this repository's schema
tree uses them. -/
def pathJoin (a b : String) : String :=
  if a = "" then b
  else if b = "" then a
  else if strEndsWith a "/" then a ++ b
  else a ++ "/" ++ b

/-- Model of Node's path.dirname for POSIX paths without trailing
slashes: the characters before the last "/", with Node's fallbacks "."
(no slash at all) and "/" (the only slash is leading). -/
def dirname (p : String) : String :=
  if p.data.contains '/' then
    if (((p.data.reverse.dropWhile (fun c => c != '/')).drop 1).reverse).isEmpty
    then "/"
    else String.mk (((p.data.reverse.dropWhile (fun c => c != '/')).drop 1).reverse)
  else "."

/-- A path is absolute when it starts with "/". -/
def isAbs (p : String) : Bool :=
  strStartsWith p "/"

/-- The filesystem visible to the validator: resolved path to parsed
schema document. A path maps to a document exactly when the file exists,
is readable and parses as JSON; a missing binding models both the ENOENT
throw of readFile and the throw of JSON.parse on malformed content, each
of which is fatal for schema files (spec section 7: SchemaNotFound and
SchemaParseError abort the run). -/
abbrev FS := List (String × Json)

/-- State owned by the schema loader: the process-wide schemaCache
(resolved path to document, validate.ts line 48) and an instrumentation
log of the disk reads performed, in order (spec section 8 verifies the
cache through read counting). -/
structure LoadSt where
  cache : List (String × Json)
  reads : List String

/-- Path normalisation of loadSchema (validate.ts lines 60-72): http(s)
URLs map to the basename of their URL path inside the schema directory,
absolute paths are used unchanged, anything else is relative to the
schema directory. -/
def resolveSchemaPath (schemaDir uri : String) : String :=
  if strStartsWith uri "https://" || strStartsWith uri "http://" then
    pathJoin schemaDir (lastSegment (urlPathname uri))
  else if strStartsWith uri "/" then uri
  else pathJoin schemaDir uri

/-- JavaScript truthiness of a parsed JSON value, as tested by the
source's cache-hit check `if (cached)` (validate.ts line 75): null,
false, 0 and the empty string are falsy; every array and object —
including empty ones — is truthy. -/
def jsTruthy : Json → Bool
  | .null => false
  | .bool b => b
  | .num n => n != 0
  | .str s => s != ""
  | .arr _ => true
  | .obj _ => true

/-- The cache-miss path of loadSchema (validate.ts lines 79-82): read
the file, parse it, store it in the cache (Map.set overwrites, modelled
by prepending the new binding, which shadows any stale one) and return
it; none models the throw on a missing or malformed schema file. -/
def loadSchemaRead (fs : FS) (schemaPath : String) (s : LoadSt) :
    Option (Json × LoadSt) :=
  match alookup fs schemaPath with
  | none => none
  | some schema =>
    some (schema,
      { cache := (schemaPath, schema) :: s.cache,
        reads := s.reads ++ [schemaPath] })

/-- loadSchema (validate.ts lines 58-83, identical in both variants):
resolve the identifier to a filesystem path, consult the cache, and
return the cached document when the entry passes the source's
truthiness test `if (cached)`; otherwise — on a genuine miss, but also
when the cached document is a falsy JSON value — read the file, parse
it, store it and return it. -/
def loadSchema (fs : FS) (schemaDir uri : String) (s : LoadSt) :
    Option (Json × LoadSt) :=
  let schemaPath := resolveSchemaPath schemaDir uri
  match alookup s.cache schemaPath with
  | some cached =>
    if jsTruthy cached then some (cached, s)
    else loadSchemaRead fs schemaPath s
  | none => loadSchemaRead fs schemaPath s

/-- The validation engine's schema registry, modelling the part of the
ajv instance this code interacts with: a map from schema identifier to
schema document. -/
abbrev Registry := List (String × Json)

/-- Model of ajv.getSchema restricted to how the source uses it (a
truthiness test on a registry lookup). -/
def getSchema (reg : Registry) (k : String) : Option Json :=
  alookup reg k

/-- Model of ajv.addSchema(schema, key), per the engine's documented
behaviour: the schema is indexed both under the explicit key and under
its own $id when it declares a non-empty one, and the call throws
("schema with key or id ... already exists") when the key or that $id is
already registered. none models the throw. -/
def addSchema (reg : Registry) (s : Json) (key : String) : Option Registry :=
  if ahasKey reg key then none
  else
    match jsonField s "$id" with
    | some (.str id) =>
      if id = "" then some ((key, s) :: reg)
      else if ahasKey reg id then none
      else some ((key, s) :: (id, s) :: reg)
    | _ => some ((key, s) :: reg)

/-- `refSchema.$id || obj.$ref` (validate.ts line 119): the schema's own
declared $id when it is a non-empty string, otherwise the literal $ref
string used to reach the schema. -/
def schemaIdOf (s : Json) (r : String) : String :=
  match jsonField s "$id" with
  | some (.str id) => if id = "" then r else id
  | _ => r

/-- The $ref classification of the glob variant (validate.ts line 111):
a string $ref points to another file unless it starts with "#". -/
def refIsExternalGlob (r : String) : Bool :=
  !(strStartsWith r "#")

/-- The $ref classification of the single-file variant (part_001 line
135 / part_000 line 43): additionally, any $ref containing "#" anywhere
is skipped. -/
def refIsExternalSingle (r : String) : Bool :=
  !(strStartsWith r "#") && !(strContainsChar r '#')

/-- Variant selector for the classification: `single = true` is the
single-file script, `single = false` the glob-based validate.ts. -/
def refIsExternal (single : Bool) (r : String) : Bool :=
  if single then refIsExternalSingle r else refIsExternalGlob r

/-- Error taxonomy for the schema-loading phase: a failed schema read or
parse, or the engine's duplicate-registration throw. -/
inductive ErrKind where
  | schemaLoad
  | alreadyExists

/-- Combined mutable state during loadReferencedSchemas: the engine's
registry, an instrumentation log of the resolved paths whose schemas
were actually passed to addSchema, and the loader state. -/
structure St where
  ajv : Registry
  addLog : List String
  load : LoadSt

/-- Outcome of the recursive traversal: normal completion, a thrown
error (carrying the state at the throw, since the cache and engine
mutations persist), or fuel exhaustion. The fuel given by
loadReferencedSchemas below is proved sufficient, so .out never arises
from the wrapper. -/
inductive PR where
  | ok (st : St)
  | err (e : ErrKind) (st : St)
  | out

/-- The state carried by a completed-or-thrown outcome. -/
def stOf : PR → Option St
  | .ok st => some st
  | .err _ st => some st
  | .out => none

/-- The read log of a completed-or-thrown outcome. -/
def readsOf (r : PR) : Option (List String) :=
  (stOf r).map (fun st => st.load.reads)

/-- Work item of the traversal: a JSON value, the tail of an array being
walked, or the tail of an object's field list being walked. -/
inductive PItem where
  | val (v : Json)
  | lst (xs : List Json)
  | flds (l : List (String × Json))

/-- Decision taken at one object for its $ref key (validate.ts lines
111-122, before the recursive call): nothing to do, a failed load of the
referenced file, the engine's duplicate-registration throw, or a
recursive walk of the newly loaded schema from an updated state. -/
inductive RefAct where
  | skip
  | loadFail
  | dup (st : St)
  | go (st : St) (refPath : String) (refSchema : Json)

/-- Registration of a freshly loaded referenced schema (validate.ts
lines 118-122): compute its $id-or-$ref identifier, check the engine
registry for it with getSchema, and only when absent hand the schema to
addSchema under the literal $ref string; either way the traversal then
descends into the loaded schema. -/
def refRegister (st : St) (ld : LoadSt) (refSchema : Json)
    (r refPath : String) : RefAct :=
  if (getSchema st.ajv (schemaIdOf refSchema r)).isSome then
    .go { st with load := ld } refPath refSchema
  else
    match addSchema st.ajv refSchema r with
    | none => .dup { st with load := ld }
    | some reg =>
      .go { ajv := reg, addLog := st.addLog ++ [refPath],
            load := ld } refPath refSchema

/-- Handling of one external string $ref (validate.ts lines 112-126):
join it to the base directory, skip when the joined path is already in
the schema cache, otherwise load the file and register it. -/
def refExternalStep (fs : FS) (schemaDir : String) (st : St)
    (baseDir r : String) : RefAct :=
  if ahasKey st.load.cache (pathJoin baseDir r) then .skip
  else
    match loadSchema fs schemaDir (pathJoin baseDir r) st.load with
    | none => .loadFail
    | some (refSchema, ld) => refRegister st ld refSchema r (pathJoin baseDir r)

/-- The non-recursive part of processValue's $ref handling (validate.ts
lines 111-122): nothing happens unless the object carries a string $ref
classified as external by the variant in use. -/
def refPrep (fs : FS) (schemaDir : String) (single : Bool)
    (baseDir : String) (st : St) (flds : List (String × Json)) : RefAct :=
  match alookup flds "$ref" with
  | some (.str r) =>
    if refIsExternal single r then refExternalStep fs schemaDir st baseDir r
    else .skip
  | _ => .skip

/-- The recursive worker of loadReferencedSchemas (processValue,
validate.ts lines 98-135): depth-first walk of a schema document; at
each object, the $ref decision of refPrep is carried out — on a fresh
external reference the loaded schema is walked recursively with the
containing file's directory as the new base — and then every field
except $ref is walked. The fuel argument makes the recursion total; one
unit is consumed per step. -/
def processAux (fs : FS) (schemaDir : String) (single : Bool) :
    Nat → String → St → PItem → PR
  | 0, _, _, _ => .out
  | n+1, baseDir, st, it =>
    match it with
    | .val .null => .ok st
    | .val (.bool _) => .ok st
    | .val (.num _) => .ok st
    | .val (.str _) => .ok st
    | .val (.arr xs) => processAux fs schemaDir single n baseDir st (.lst xs)
    | .val (.obj flds) =>
      let afterRef : PR :=
        match refPrep fs schemaDir single baseDir st flds with
        | .skip => .ok st
        | .loadFail => .err .schemaLoad st
        | .dup st2 => .err .alreadyExists st2
        | .go st2 refPath refSchema =>
          processAux fs schemaDir single n (dirname refPath) st2 (.val refSchema)
      match afterRef with
      | .ok st1 => processAux fs schemaDir single n baseDir st1 (.flds flds)
      | e => e
    | .lst [] => .ok st
    | .lst (x :: xs) =>
      match processAux fs schemaDir single n baseDir st (.val x) with
      | .ok st1 => processAux fs schemaDir single n baseDir st1 (.lst xs)
      | e => e
    | .flds [] => .ok st
    | .flds ((k, v) :: rest) =>
      if k = "$ref" then processAux fs schemaDir single n baseDir st (.flds rest)
      else
        match processAux fs schemaDir single n baseDir st (.val v) with
        | .ok st1 => processAux fs schemaDir single n baseDir st1 (.flds rest)
        | e => e

mutual
/-- Step-count bound for walking one JSON value. -/
def szV : Json → Nat
  | .null => 1
  | .bool _ => 1
  | .num _ => 1
  | .str _ => 1
  | .arr xs => 1 + szL xs
  | .obj flds => 1 + szF flds

/-- Step-count bound for walking an array tail. -/
def szL : List Json → Nat
  | [] => 1
  | x :: xs => 1 + szV x + szL xs

/-- Step-count bound for walking an object's field-list tail. -/
def szF : List (String × Json) → Nat
  | [] => 1
  | (_, v) :: rest => 1 + szV v + szF rest
end

/-- Fuel still needed for the filesystem entries not yet cached: each
uncached entry can be loaded and walked at most once, costing its size
plus the loading step. -/
def remB : FS → List (String × Json) → Nat
  | [], _ => 0
  | (p, j) :: rest, cache =>
    (if ahasKey cache p then 0 else szV j + 1) + remB rest cache

/-- loadReferencedSchemas (validate.ts lines 93-138): walk the given
schema with the worker above, with fuel computed from the schema's size
and the sizes of the not-yet-cached filesystem entries. The fuel
sufficiency theorem below shows this budget is never exhausted when the
base directory is absolute, which is the termination argument of the
source (each distinct path is processed at most once). -/
def loadReferencedSchemas (fs : FS) (schemaDir : String) (single : Bool)
    (st : St) (baseDir : String) (schema : Json) : PR :=
  processAux fs schemaDir single (szV schema + remB fs st.load.cache + 1)
    baseDir st (.val schema)

/-- The empty process state: fresh cache, no reads, fresh engine. -/
def emptySt : St :=
  { ajv := [], addLog := [], load := { cache := [], reads := [] } }

/-- The schema cache only gains keys: every key present in the first
cache is present in the second. -/
def CacheLe (c c' : List (String × Json)) : Prop :=
  ∀ p, ahasKey c p = true → ahasKey c' p = true

/-- Fuel requirement of a work item. -/
def szI : PItem → Nat
  | .val v => szV v
  | .lst xs => szL xs
  | .flds l => szF l

/-- Invariant of the registration log: no path is logged twice, and
every logged path is already in the schema cache (the source caches a
referenced file before handing it to addSchema, and only enters the
registration branch when the path is not yet cached). -/
def GoodSt (st : St) : Prop :=
  st.addLog.Nodup ∧ ∀ p ∈ st.addLog, ahasKey st.load.cache p = true

mutual
/-- Whether a JSON document contains, anywhere, an object field
"$ref" whose value is the given string — used to state that one schema
file references another. -/
def hasRefTo : Json → String → Bool
  | .obj flds, r => hasRefToF flds r
  | .arr xs, r => hasRefToL xs r
  | _, _ => false

/-- hasRefTo over the elements of an array. -/
def hasRefToL : List Json → String → Bool
  | [], _ => false
  | x :: xs, r => hasRefTo x r || hasRefToL xs r

/-- hasRefTo over the fields of an object. -/
def hasRefToF : List (String × Json) → String → Bool
  | [], _ => false
  | (k, v) :: rest, r =>
    (decide (k = "$ref") && (match v with
                             | .str s => decide (s = r)
                             | _ => false))
      || hasRefTo v r || hasRefToF rest r
end

/-- One validation error of the engine, as consumed by the error
formatters: instance path, failing keyword and message. -/
structure AjvError where
  instancePath : String
  keyword : String
  message : String

/-- A validation target on disk: the outcome of JSON.parse on its
content (none when the content is not valid JSON) together with the
parse error's message text. -/
structure TargetDoc where
  parsed : Option Json
  parseErr : String

/-- The validation targets visible on disk, by path; a missing binding
models a readFile throw, which is fatal for targets. -/
abbrev Docs := List (String × TargetDoc)

/-- FileValidationResult (validate.ts lines 17-21): file path, validity,
optional diagnostic text. -/
structure FileValidationResult where
  file : String
  valid : Bool
  errors : Option String
deriving DecidableEq

/-- validateFile of the glob variant (validate.ts lines 178-208): read
the target, report a JSON-syntax diagnostic instead of throwing when it
does not parse, otherwise apply the compiled validator; on failure the
diagnostics are rendered by the context-aware pretty-printer
(betterAjvErrors, modelled by the render parameter). The compiled
engine validator is modelled by vf, returning validity plus the error
list the engine leaves behind. -/
def validateFile (docs : Docs) (vf : Json → Bool × List AjvError)
    (render : Json → Json → List AjvError → String) (schema : Json)
    (file : String) : Option FileValidationResult :=
  match alookup docs file with
  | none => none
  | some doc =>
    match doc.parsed with
    | none =>
      some { file := file, valid := false,
             errors := some ("Invalid JSON: " ++ doc.parseErr) }
    | some data =>
      if (vf data).1 then some { file := file, valid := true, errors := none }
      else
        some { file := file, valid := false,
               errors := some (render schema data (vf data).2) }

/-- validateFile of the single-file TypeScript source (part_001 lines
191-221): same reading and parsing behaviour, but diagnostics are the
flat list of raw engine errors, one
instancePath keyword: message line per error. The schema parameter is
declared (and passed by its caller) but unused. -/
def validateFileSrc (docs : Docs) (vf : Json → Bool × List AjvError)
    (schema : Json) (file : String) : Option FileValidationResult :=
  match alookup docs file with
  | none => none
  | some doc =>
    match doc.parsed with
    | none =>
      some { file := file, valid := false,
             errors := some ("Invalid JSON: " ++ doc.parseErr) }
    | some data =>
      if (vf data).1 then some { file := file, valid := true, errors := none }
      else
        some { file := file, valid := false,
               errors := some (String.intercalate "\n" ((vf data).2.map
                 (fun e => e.instancePath ++ " " ++ e.keyword ++ ": " ++
                   e.message))) }

/-- validateFile of the bundled single-file script (part_000 lines
71-91): identical logic, but the function is invoked with only two
arguments — no schema parameter exists. -/
def validateFileDist (docs : Docs) (vf : Json → Bool × List AjvError)
    (file : String) : Option FileValidationResult :=
  match alookup docs file with
  | none => none
  | some doc =>
    match doc.parsed with
    | none =>
      some { file := file, valid := false,
             errors := some ("Invalid JSON: " ++ doc.parseErr) }
    | some data =>
      if (vf data).1 then some { file := file, valid := true, errors := none }
      else
        some { file := file, valid := false,
               errors := some (String.intercalate "\n" ((vf data).2.map
                 (fun e => e.instancePath ++ " " ++ e.keyword ++ ": " ++
                   e.message))) }

/-- The per-file loop of the glob variant's validate (validate.ts lines
242-254): every file is validated in order; none models the abort when a
target cannot be read at all. -/
def runValidation (docs : Docs) (vf : Json → Bool × List AjvError)
    (render : Json → Json → List AjvError → String) (schema : Json) :
    List String → Option (List FileValidationResult)
  | [] => some []
  | f :: rest =>
    match validateFile docs vf render schema f with
    | none => none
    | some r =>
      match runValidation docs vf render schema rest with
      | none => none
      | some rs => some (r :: rs)

/-- validate of the glob variant (validate.ts lines 216-257) after the
schema phase: given the discovered (sorted) file list and the compiled
validator, an empty list short-circuits to true (lines 234-237);
otherwise every file is validated and the result is the conjunction of
the per-file validities (the allValid loop). -/
def validate (docs : Docs) (vf : Json → Bool × List AjvError)
    (render : Json → Json → List AjvError → String) (schema : Json)
    (files : List String) : Option Bool :=
  if files.isEmpty then some true
  else
    match runValidation docs vf render schema files with
    | none => none
    | some rs => some (rs.all (fun r => r.valid))

/-- Exit-code mapping of main (validate.ts line 280):
process.exit(valid ? 0 : 1). -/
def exitCode (valid : Bool) : Nat :=
  if valid then 0 else 1

/-- Atom test on JSON values: everything that the traversal returns from
immediately, without recursion. -/
def isAtom : Json → Bool
  | .arr _ => false
  | .obj _ => false
  | _ => true

/-- Concrete cyclic pair used to witness C2. -/
def jAW : Json := .obj [("$ref", .str "b.json")]

/-- Concrete cyclic pair used to witness C2. -/
def jBW : Json := .obj [("$ref", .str "a.json")]

/-- Filesystem of the C2 witness: a.json and b.json reference each
other. -/
def fsW2 : FS := [("/s/a.json", jAW), ("/s/b.json", jBW)]

/-- Root schema of the C2 witness, referencing a.json. -/
def rootW2 : Json := .obj [("$ref", .str "a.json")]

/-- The final state of the C2 witness run, as computed by the model. -/
def stW2 : St :=
  St.mk [("b.json", jBW), ("a.json", jAW)] ["/s/a.json", "/s/b.json"]
    (LoadSt.mk [("/s/b.json", jBW), ("/s/a.json", jAW)]
      ["/s/a.json", "/s/b.json"])

/-- Detector for the engine's duplicate-registration throw. -/
def isDupErr : PR → Bool
  | .err .alreadyExists _ => true
  | _ => false

/-- Filesystem of the C4 counterexample: two distinct files are both
reachable through the literal $ref string common.json — one from the
root's directory, one from sub/ — and the second declares a fresh $id. -/
def fsDup : FS :=
  [("/s/common.json", .obj []),
   ("/s/sub/x.json", .obj [("$ref", .str "common.json")]),
   ("/s/sub/common.json", .obj [("$id", .str "x-schema")])]

/-- Root schema of the C4 counterexample. -/
def rootDup : Json :=
  .obj [("a", .obj [("$ref", .str "common.json")]),
        ("b", .obj [("$ref", .str "sub/x.json")])]

theorem strData_append (a b : String) : (a ++ b).data = a.data ++ b.data := by
  cases a
  cases b
  rfl

theorem strAppend_assoc (a b c : String) : a ++ b ++ c = a ++ (b ++ c) := by
  cases a with
  | mk la =>
    cases b with
    | mk lb =>
      cases c with
      | mk lc =>
        exact congrArg String.mk (List.append_assoc la lb lc)

theorem isAbs_iff (p : String) : isAbs p = true ↔ ∃ t, p.data = '/' :: t := by
  have h0 : isAbs p = isPre ['/'] p.data := rfl
  rw [h0]
  cases h : p.data with
  | nil => simp [isPre]
  | cons a l =>
    simp only [isPre, Bool.and_eq_true, beq_iff_eq]
    constructor
    · rintro ⟨h1, -⟩
      exact ⟨l, by rw [← h1]⟩
    · rintro ⟨t, ht⟩
      injection ht with h1 h2
      exact ⟨h1.symm, trivial⟩

theorem isAbs_append (a b : String) (h : isAbs a = true) :
    isAbs (a ++ b) = true := by
  rcases (isAbs_iff a).mp h with ⟨t, ht⟩
  refine (isAbs_iff (a ++ b)).mpr ⟨t ++ b.data, ?_⟩
  rw [strData_append, ht]
  rfl

theorem isAbs_pathJoin (a b : String) (h : isAbs a = true) :
    isAbs (pathJoin a b) = true := by
  unfold pathJoin
  split
  · next ha =>
    subst ha
    exact absurd h (by decide)
  · split
    · exact h
    · split
      · exact isAbs_append a b h
      · rw [strAppend_assoc]
        exact isAbs_append a ("/" ++ b) h

theorem rev_decomp (r : List Char) (q : Char → Bool) :
    r.reverse = ((r.dropWhile q).drop 1).reverse ++
      (((r.dropWhile q).take 1).reverse ++ (r.takeWhile q).reverse) := by
  conv_lhs => rw [← List.takeWhile_append_dropWhile (p := q) (l := r)]
  rw [List.reverse_append]
  conv_lhs => rw [← List.take_append_drop 1 (r.dropWhile q)]
  rw [List.reverse_append, List.append_assoc]

theorem isAbs_dirname (p : String) (h : isAbs p = true) :
    isAbs (dirname p) = true := by
  rcases (isAbs_iff p).mp h with ⟨t, ht⟩
  have hc : p.data.contains '/' = true := by
    rw [ht]
    simp
  have hsplit : p.data =
      ((p.data.reverse.dropWhile (fun c => c != '/')).drop 1).reverse ++
      (((p.data.reverse.dropWhile (fun c => c != '/')).take 1).reverse ++
        (p.data.reverse.takeWhile (fun c => c != '/')).reverse) := by
    have hr := rev_decomp p.data.reverse (fun c => c != '/')
    rwa [List.reverse_reverse] at hr
  unfold dirname
  rw [hc]
  simp only [if_true]
  split
  · decide
  · next hd =>
    refine (isAbs_iff _).mpr ?_
    cases hcons : ((p.data.reverse.dropWhile (fun c => c != '/')).drop 1).reverse with
    | nil =>
      rw [hcons] at hd
      exact absurd rfl hd
    | cons c cs =>
      rw [hcons] at hsplit
      rw [ht] at hsplit
      simp only [List.cons_append] at hsplit
      injection hsplit with h1 h2
      refine ⟨cs, ?_⟩
      show c :: cs = '/' :: cs
      rw [h1]

theorem isPre_cons_ne (a b : Char) (as bs : List Char) (h : (a == b) = false) :
    isPre (a :: as) (b :: bs) = false := by
  show (a == b && isPre as bs) = false
  rw [h, Bool.false_and]

theorem not_http_of_abs (p : String) (h : isAbs p = true) :
    strStartsWith p "https://" = false ∧ strStartsWith p "http://" = false := by
  rcases (isAbs_iff p).mp h with ⟨t, ht⟩
  constructor
  · show isPre "https://".data p.data = false
    rw [ht]
    exact isPre_cons_ne _ _ _ _ rfl
  · show isPre "http://".data p.data = false
    rw [ht]
    exact isPre_cons_ne _ _ _ _ rfl

theorem ahasKey_false_iff {α : Type} (m : List (String × α)) (k : String) :
    ahasKey m k = false ↔ alookup m k = none := by
  unfold ahasKey
  cases alookup m k <;> simp

theorem ahasKey_cons_self {α : Type} (m : List (String × α)) (p : String) (v : α) :
    ahasKey ((p, v) :: m) p = true := by
  simp [ahasKey, alookup]

theorem ahasKey_cons_of {α : Type} {m : List (String × α)} {k : String}
    (p : String) (v : α) (h : ahasKey m k = true) :
    ahasKey ((p, v) :: m) k = true := by
  unfold ahasKey alookup
  split <;> simp_all [ahasKey]

theorem ahasKey_cons_ne {α : Type} (m : List (String × α)) {p k : String}
    (v : α) (h : p ≠ k) : ahasKey ((p, v) :: m) k = ahasKey m k := by
  simp [ahasKey, alookup, h]

theorem cacheLe_refl (c : List (String × Json)) : CacheLe c c :=
  fun _ h => h

theorem cacheLe_trans {a b c : List (String × Json)}
    (h1 : CacheLe a b) (h2 : CacheLe b c) : CacheLe a c :=
  fun p h => h2 p (h1 p h)

theorem cacheLe_cons (c : List (String × Json)) (p : String) (v : Json) :
    CacheLe c ((p, v) :: c) :=
  fun _q h => ahasKey_cons_of p v h

theorem remB_mono (fs : FS) {c c' : List (String × Json)} (h : CacheLe c c') :
    remB fs c' ≤ remB fs c := by
  induction fs with
  | nil => simp [remB]
  | cons e rest ih =>
    obtain ⟨p, j⟩ := e
    simp only [remB]
    have hterm : (if ahasKey c' p then 0 else szV j + 1) ≤
        (if ahasKey c p then 0 else szV j + 1) := by
      by_cases hc : ahasKey c p = true
      · rw [hc, h p hc]
      · have hc' : ahasKey c p = false := by simpa using hc
        rw [hc']
        have he : (if false = true then 0 else szV j + 1) = szV j + 1 := by simp
        rw [he]
        split <;> omega
    omega

theorem remB_insert (fs : FS) {c : List (String × Json)} {p : String} {j : Json}
    (hk : ahasKey c p = false) (hf : alookup fs p = some j) :
    szV j + 1 + remB fs ((p, j) :: c) ≤ remB fs c := by
  induction fs with
  | nil => simp [alookup] at hf
  | cons e rest ih =>
    obtain ⟨q, w⟩ := e
    by_cases hq : q = p
    · subst hq
      have hw : w = j := by
        simp [alookup] at hf
        exact hf
      subst hw
      simp only [remB, hk, ahasKey_cons_self, if_true, Bool.false_eq_true,
        if_false]
      have hm : remB rest ((q, w) :: c) ≤ remB rest c :=
        remB_mono rest (cacheLe_cons c q w)
      omega
    · have hkey : ahasKey ((p, j) :: c) q = ahasKey c q :=
        ahasKey_cons_ne c j (fun hpq => hq hpq.symm)
      have hf' : alookup rest p = some j := by
        simpa [alookup, hq] using hf
      have := ih hf'
      simp only [remB, hkey]
      omega

theorem loadSchemaRead_some {fs : FS} {p : String} {s : LoadSt} {j : Json}
    {ld : LoadSt} (h : loadSchemaRead fs p s = some (j, ld)) :
    alookup fs p = some j ∧
      ld = LoadSt.mk ((p, j) :: s.cache) (s.reads ++ [p]) := by
  unfold loadSchemaRead at h
  cases hf : alookup fs p with
  | none =>
    rw [hf] at h
    simp at h
  | some w =>
    rw [hf] at h
    have h' : (some (w, LoadSt.mk ((p, w) :: s.cache) (s.reads ++ [p])) :
        Option (Json × LoadSt)) = some (j, ld) := h
    injection h' with h3
    injection h3 with h4 h5
    subst h4
    exact ⟨rfl, h5.symm⟩

theorem loadSchemaRead_cacheLe {fs : FS} {p : String} {s : LoadSt} {j : Json}
    {ld : LoadSt} (h : loadSchemaRead fs p s = some (j, ld)) :
    CacheLe s.cache ld.cache := by
  obtain ⟨-, h2⟩ := loadSchemaRead_some h
  rw [h2]
  exact cacheLe_cons _ _ _

theorem loadSchema_cacheLe {fs : FS} {d u : String} {s : LoadSt} {j : Json}
    {s' : LoadSt} (h : loadSchema fs d u s = some (j, s')) :
    CacheLe s.cache s'.cache := by
  simp only [loadSchema] at h
  cases h1 : alookup s.cache (resolveSchemaPath d u) with
  | some cached =>
    simp only [h1] at h
    by_cases ht : jsTruthy cached = true
    · rw [if_pos ht] at h
      injection h with h2
      injection h2 with h3 h4
      rw [← h4]
      exact cacheLe_refl _
    · rw [if_neg ht] at h
      exact loadSchemaRead_cacheLe h
  | none =>
    simp only [h1] at h
    exact loadSchemaRead_cacheLe h

theorem loadSchema_abs_miss {fs : FS} {d u : String} {s : LoadSt}
    (h1 : isAbs u = true) (h2 : ahasKey s.cache u = false) :
    loadSchema fs d u s = loadSchemaRead fs u s := by
  have hres : resolveSchemaPath d u = u := by
    unfold resolveSchemaPath
    obtain ⟨ha, hb⟩ := not_http_of_abs u h1
    rw [ha, hb]
    have hslash : strStartsWith u "/" = true := h1
    simp [hslash]
  simp only [loadSchema, hres, (ahasKey_false_iff _ _).mp h2]

theorem refRegister_go {st : St} {ld : LoadSt} {rs : Json} {r rp : String}
    {st2 : St} {rp' : String} {rs' : Json}
    (h : refRegister st ld rs r rp = .go st2 rp' rs') :
    rp' = rp ∧ rs' = rs ∧ st2.load = ld ∧
      (st2.addLog = st.addLog ∨ st2.addLog = st.addLog ++ [rp]) := by
  unfold refRegister at h
  split at h
  · injection h with h1 h2 h3
    exact ⟨h2.symm, h3.symm, by rw [← h1], Or.inl (by rw [← h1])⟩
  · split at h
    · simp at h
    · injection h with h1 h2 h3
      exact ⟨h2.symm, h3.symm, by rw [← h1], Or.inr (by rw [← h1])⟩

theorem refRegister_dup {st : St} {ld : LoadSt} {rs : Json} {r rp : String}
    {st2 : St} (h : refRegister st ld rs r rp = .dup st2) :
    st2.load = ld ∧ st2.addLog = st.addLog := by
  unfold refRegister at h
  split at h
  · simp at h
  · split at h
    · injection h with h1
      exact ⟨by rw [← h1], by rw [← h1]⟩
    · simp at h

theorem refExternalStep_go {fs : FS} {d : String} {st : St} {bd r : String}
    {st2 : St} {rp : String} {rs : Json}
    (h : refExternalStep fs d st bd r = .go st2 rp rs) :
    rp = pathJoin bd r ∧ ahasKey st.load.cache (pathJoin bd r) = false ∧
      ∃ ld, loadSchema fs d (pathJoin bd r) st.load = some (rs, ld) ∧
        st2.load = ld ∧
        (st2.addLog = st.addLog ∨ st2.addLog = st.addLog ++ [pathJoin bd r]) := by
  unfold refExternalStep at h
  split at h
  · simp at h
  · next hck =>
    split at h
    · simp at h
    · next rs0 ld0 hls =>
      obtain ⟨h1, h2, h3, h4⟩ := refRegister_go h
      subst h1
      subst h2
      exact ⟨rfl, by simpa using hck, ld0, hls, h3, h4⟩

theorem refExternalStep_dup {fs : FS} {d : String} {st : St} {bd r : String}
    {st2 : St} (h : refExternalStep fs d st bd r = .dup st2) :
    ∃ rs ld, loadSchema fs d (pathJoin bd r) st.load = some (rs, ld) ∧
      st2.load = ld ∧ st2.addLog = st.addLog := by
  unfold refExternalStep at h
  split at h
  · simp at h
  · split at h
    · simp at h
    · next rs0 ld0 hls =>
      obtain ⟨h1, h2⟩ := refRegister_dup h
      exact ⟨rs0, ld0, hls, h1, h2⟩

theorem refPrep_go {fs : FS} {d : String} {sg : Bool} {bd : String} {st : St}
    {flds : List (String × Json)} {st2 : St} {rp : String} {rs : Json}
    (h : refPrep fs d sg bd st flds = .go st2 rp rs) :
    ∃ r, alookup flds "$ref" = some (.str r) ∧ refIsExternal sg r = true ∧
      refExternalStep fs d st bd r = .go st2 rp rs := by
  unfold refPrep at h
  split at h
  · next r heq =>
    split at h
    · next hext => exact ⟨r, heq, hext, h⟩
    · simp at h
  · simp at h

theorem refPrep_dup {fs : FS} {d : String} {sg : Bool} {bd : String} {st : St}
    {flds : List (String × Json)} {st2 : St}
    (h : refPrep fs d sg bd st flds = .dup st2) :
    ∃ r, alookup flds "$ref" = some (.str r) ∧ refIsExternal sg r = true ∧
      refExternalStep fs d st bd r = .dup st2 := by
  unfold refPrep at h
  split at h
  · next r heq =>
    split at h
    · next hext => exact ⟨r, heq, hext, h⟩
    · simp at h
  · simp at h

theorem processAux_atom {fs : FS} {d : String} {sg : Bool} {n : Nat}
    {bd : String} {st : St} {v : Json}
    (h : match v with
         | .arr _ => False
         | .obj _ => False
         | _ => True) :
    processAux fs d sg (n+1) bd st (.val v) = .ok st := by
  cases v <;> first | rfl | exact absurd h (by simp)

theorem processAux_arr (fs : FS) (d : String) (sg : Bool) (n : Nat)
    (bd : String) (st : St) (xs : List Json) :
    processAux fs d sg (n+1) bd st (.val (.arr xs)) =
      processAux fs d sg n bd st (.lst xs) := rfl

theorem processAux_obj (fs : FS) (d : String) (sg : Bool) (n : Nat)
    (bd : String) (st : St) (flds : List (String × Json)) :
    processAux fs d sg (n+1) bd st (.val (.obj flds)) =
      (match ((match refPrep fs d sg bd st flds with
              | RefAct.skip => PR.ok st
              | RefAct.loadFail => PR.err .schemaLoad st
              | RefAct.dup st2 => PR.err .alreadyExists st2
              | RefAct.go st2 refPath refSchema =>
                processAux fs d sg n (dirname refPath) st2 (.val refSchema)) : PR) with
       | .ok st1 => processAux fs d sg n bd st1 (.flds flds)
       | e => e) := rfl

theorem processAux_lst_nil (fs : FS) (d : String) (sg : Bool) (n : Nat)
    (bd : String) (st : St) :
    processAux fs d sg (n+1) bd st (.lst []) = .ok st := rfl

theorem processAux_lst_cons (fs : FS) (d : String) (sg : Bool) (n : Nat)
    (bd : String) (st : St) (x : Json) (xs : List Json) :
    processAux fs d sg (n+1) bd st (.lst (x :: xs)) =
      (match processAux fs d sg n bd st (.val x) with
       | .ok st1 => processAux fs d sg n bd st1 (.lst xs)
       | e => e) := rfl

theorem processAux_flds_nil (fs : FS) (d : String) (sg : Bool) (n : Nat)
    (bd : String) (st : St) :
    processAux fs d sg (n+1) bd st (.flds []) = .ok st := rfl

theorem processAux_flds_cons (fs : FS) (d : String) (sg : Bool) (n : Nat)
    (bd : String) (st : St) (k : String) (v : Json)
    (rest : List (String × Json)) :
    processAux fs d sg (n+1) bd st (.flds ((k, v) :: rest)) =
      (if k = "$ref" then processAux fs d sg n bd st (.flds rest)
       else
         match processAux fs d sg n bd st (.val v) with
         | .ok st1 => processAux fs d sg n bd st1 (.flds rest)
         | e => e) := rfl

theorem processAux_obj_skip {fs : FS} {d : String} {sg : Bool} {n : Nat}
    {bd : String} {st : St} {flds : List (String × Json)}
    (hrp : refPrep fs d sg bd st flds = .skip) :
    processAux fs d sg (n+1) bd st (.val (.obj flds)) =
      processAux fs d sg n bd st (.flds flds) := by
  rw [processAux_obj, hrp]

theorem processAux_obj_loadFail {fs : FS} {d : String} {sg : Bool} {n : Nat}
    {bd : String} {st : St} {flds : List (String × Json)}
    (hrp : refPrep fs d sg bd st flds = .loadFail) :
    processAux fs d sg (n+1) bd st (.val (.obj flds)) =
      .err .schemaLoad st := by
  rw [processAux_obj, hrp]

theorem processAux_obj_dup {fs : FS} {d : String} {sg : Bool} {n : Nat}
    {bd : String} {st st2 : St} {flds : List (String × Json)}
    (hrp : refPrep fs d sg bd st flds = .dup st2) :
    processAux fs d sg (n+1) bd st (.val (.obj flds)) =
      .err .alreadyExists st2 := by
  rw [processAux_obj, hrp]

theorem processAux_obj_go {fs : FS} {d : String} {sg : Bool} {n : Nat}
    {bd : String} {st st2 : St} {rp : String} {rs : Json}
    {flds : List (String × Json)}
    (hrp : refPrep fs d sg bd st flds = .go st2 rp rs) :
    processAux fs d sg (n+1) bd st (.val (.obj flds)) =
      (match processAux fs d sg n (dirname rp) st2 (.val rs) with
       | .ok st1 => processAux fs d sg n bd st1 (.flds flds)
       | e => e) := by
  rw [processAux_obj, hrp]

theorem stOf_seq {r1 : PR} {f : St → PR} {st' : St}
    (h : stOf (match r1 with | .ok st1 => f st1 | e => e) = some st') :
    (∃ st1, r1 = .ok st1 ∧ stOf (f st1) = some st') ∨
      (∃ e st1, r1 = .err e st1 ∧ st' = st1) := by
  cases r1 with
  | ok st1 => exact Or.inl ⟨st1, rfl, h⟩
  | err e st1 =>
    simp only [stOf, Option.some.injEq] at h
    exact Or.inr ⟨e, st1, rfl, h.symm⟩
  | out => simp [stOf] at h

theorem refPrep_go_cacheLe {fs : FS} {d : String} {sg : Bool} {bd : String}
    {st st2 : St} {rp : String} {rs : Json}
    {flds : List (String × Json)}
    (hrp : refPrep fs d sg bd st flds = .go st2 rp rs) :
    CacheLe st.load.cache st2.load.cache := by
  obtain ⟨r, href, hext, hstep⟩ := refPrep_go hrp
  obtain ⟨hrpEq, hck, ld, hls, hld, hlog⟩ := refExternalStep_go hstep
  rw [hld]
  exact loadSchema_cacheLe hls

theorem refPrep_dup_cacheLe {fs : FS} {d : String} {sg : Bool} {bd : String}
    {st st2 : St} {flds : List (String × Json)}
    (hrp : refPrep fs d sg bd st flds = .dup st2) :
    CacheLe st.load.cache st2.load.cache := by
  obtain ⟨r, href, hext, hstep⟩ := refPrep_dup hrp
  obtain ⟨rs, ld, hls, hld, hlog⟩ := refExternalStep_dup hstep
  rw [hld]
  exact loadSchema_cacheLe hls

/-- The schema cache only grows across the traversal: any completed or
thrown outcome extends the input cache. -/
theorem processAux_mono (fs : FS) (d : String) (sg : Bool) :
    ∀ n bd st it st', stOf (processAux fs d sg n bd st it) = some st' →
      CacheLe st.load.cache st'.load.cache := by
  intro n
  induction n with
  | zero =>
    intro bd st it st' h
    simp [processAux, stOf] at h
  | succ n ih =>
    intro bd st it st' h
    cases it with
    | val v =>
      cases v with
      | arr xs =>
        rw [processAux_arr] at h
        exact ih bd st _ st' h
      | obj flds =>
        cases hrp : refPrep fs d sg bd st flds with
        | skip =>
          rw [processAux_obj_skip hrp] at h
          exact ih bd st _ st' h
        | loadFail =>
          rw [processAux_obj_loadFail hrp] at h
          simp only [stOf, Option.some.injEq] at h
          rw [← h]
          exact cacheLe_refl _
        | dup st2 =>
          rw [processAux_obj_dup hrp] at h
          simp only [stOf, Option.some.injEq] at h
          rw [← h]
          exact refPrep_dup_cacheLe hrp
        | go st2 rp rs =>
          rw [processAux_obj_go hrp] at h
          have hle0 : CacheLe st.load.cache st2.load.cache :=
            refPrep_go_cacheLe hrp
          rcases stOf_seq h with ⟨st1, hres, h2⟩ | ⟨e, st1, hres, hst⟩
          · exact cacheLe_trans hle0
              (cacheLe_trans (ih _ st2 _ st1 (by rw [hres]; rfl))
                (ih bd st1 _ st' h2))
          · rw [hst]
            exact cacheLe_trans hle0 (ih _ st2 _ st1 (by rw [hres]; rfl))
      | null =>
        rw [processAux_atom (by simp)] at h
        simp only [stOf, Option.some.injEq] at h
        rw [← h]
        exact cacheLe_refl _
      | bool b =>
        rw [processAux_atom (by simp)] at h
        simp only [stOf, Option.some.injEq] at h
        rw [← h]
        exact cacheLe_refl _
      | num m =>
        rw [processAux_atom (by simp)] at h
        simp only [stOf, Option.some.injEq] at h
        rw [← h]
        exact cacheLe_refl _
      | str s =>
        rw [processAux_atom (by simp)] at h
        simp only [stOf, Option.some.injEq] at h
        rw [← h]
        exact cacheLe_refl _
    | lst xs =>
      cases xs with
      | nil =>
        rw [processAux_lst_nil] at h
        simp only [stOf, Option.some.injEq] at h
        rw [← h]
        exact cacheLe_refl _
      | cons x rest =>
        rw [processAux_lst_cons] at h
        rcases stOf_seq h with ⟨st1, hres, h2⟩ | ⟨e, st1, hres, hst⟩
        · exact cacheLe_trans (ih bd st _ st1 (by rw [hres]; rfl))
            (ih bd st1 _ st' h2)
        · rw [hst]
          exact ih bd st _ st1 (by rw [hres]; rfl)
    | flds l =>
      cases l with
      | nil =>
        rw [processAux_flds_nil] at h
        simp only [stOf, Option.some.injEq] at h
        rw [← h]
        exact cacheLe_refl _
      | cons kv rest =>
        obtain ⟨k, v⟩ := kv
        rw [processAux_flds_cons] at h
        by_cases hk : k = "$ref"
        · rw [if_pos hk] at h
          exact ih bd st _ st' h
        · rw [if_neg hk] at h
          rcases stOf_seq h with ⟨st1, hres, h2⟩ | ⟨e, st1, hres, hst⟩
          · exact cacheLe_trans (ih bd st _ st1 (by rw [hres]; rfl))
              (ih bd st1 _ st' h2)
          · rw [hst]
            exact ih bd st _ st1 (by rw [hres]; rfl)

theorem szV_pos (v : Json) : 1 ≤ szV v := by
  cases v <;> simp [szV]

theorem szL_pos (xs : List Json) : 1 ≤ szL xs := by
  cases xs <;> simp only [szL] <;> omega

theorem szF_pos (l : List (String × Json)) : 1 ≤ szF l := by
  cases l with
  | nil => simp [szF]
  | cons kv rest =>
    obtain ⟨k, v⟩ := kv
    simp only [szF]
    omega

theorem szI_pos (it : PItem) : 1 ≤ szI it := by
  cases it with
  | val v => exact szV_pos v
  | lst xs => exact szL_pos xs
  | flds l => exact szF_pos l

theorem loadSchema_abs_miss_some {fs : FS} {d u : String} {s : LoadSt}
    {j : Json} {ld : LoadSt} (h1 : isAbs u = true)
    (h2 : ahasKey s.cache u = false) (h : loadSchema fs d u s = some (j, ld)) :
    alookup fs u = some j ∧
      ld = { cache := (u, j) :: s.cache, reads := s.reads ++ [u] } := by
  rw [loadSchema_abs_miss h1 h2] at h
  exact loadSchemaRead_some h

/-- Fuel sufficiency: with absolute base directory, the budget
szI + remB is never exhausted — the formal termination argument of
loadReferencedSchemas (each uncached path is loaded and walked at most
once, and walking a document takes at most its size in steps). -/
theorem processAux_fuel (fs : FS) (d : String) (sg : Bool) :
    ∀ n bd st it, isAbs bd = true →
      szI it + remB fs st.load.cache ≤ n →
      processAux fs d sg n bd st it ≠ .out := by
  intro n
  induction n with
  | zero =>
    intro bd st it habs hsz
    have := szI_pos it
    omega
  | succ n ih =>
    intro bd st it habs hsz
    cases it with
    | val v =>
      cases v with
      | null => rw [processAux_atom (by simp)]; simp
      | bool b => rw [processAux_atom (by simp)]; simp
      | num m => rw [processAux_atom (by simp)]; simp
      | str s => rw [processAux_atom (by simp)]; simp
      | arr xs =>
        rw [processAux_arr]
        apply ih bd st (.lst xs) habs
        simp only [szI, szV, szL] at hsz ⊢
        omega
      | obj flds =>
        cases hrp : refPrep fs d sg bd st flds with
        | skip =>
          rw [processAux_obj_skip hrp]
          apply ih bd st (.flds flds) habs
          simp only [szI, szV, szF] at hsz ⊢
          omega
        | loadFail =>
          rw [processAux_obj_loadFail hrp]
          simp
        | dup st2 =>
          rw [processAux_obj_dup hrp]
          simp
        | go st2 rp rs =>
          rw [processAux_obj_go hrp]
          obtain ⟨r, href, hext, hstep⟩ := refPrep_go hrp
          obtain ⟨hrpEq, hck, ld, hls, hld, hlog⟩ := refExternalStep_go hstep
          subst hrpEq
          have habs2 : isAbs (pathJoin bd r) = true := isAbs_pathJoin bd r habs
          obtain ⟨hfs, hldEq⟩ := loadSchema_abs_miss_some habs2 hck hls
          have hcache2 : st2.load.cache = (pathJoin bd r, rs) :: st.load.cache := by
            rw [hld, hldEq]
          have hdec : szV rs + 1 + remB fs ((pathJoin bd r, rs) :: st.load.cache) ≤
              remB fs st.load.cache := remB_insert fs hck hfs
          have hszo : 1 + szF flds + remB fs st.load.cache ≤ n + 1 := by
            simp only [szI, szV] at hsz
            omega
          have hinner : processAux fs d sg n (dirname (pathJoin bd r)) st2
              (.val rs) ≠ .out := by
            apply ih _ st2 (.val rs) (isAbs_dirname _ habs2)
            simp only [szI]
            rw [hcache2]
            omega
          cases hres : processAux fs d sg n (dirname (pathJoin bd r)) st2
              (.val rs) with
          | ok st1 =>
            show processAux fs d sg n bd st1 (.flds flds) ≠ .out
            have hm := processAux_mono fs d sg n _ st2 (.val rs) st1
              (by rw [hres]; rfl)
            have h1 : remB fs st1.load.cache ≤ remB fs st2.load.cache :=
              remB_mono fs hm
            apply ih bd st1 (.flds flds) habs
            simp only [szI]
            rw [hcache2] at h1
            omega
          | err e st1 => simp
          | out => exact absurd hres hinner
    | lst xs =>
      cases xs with
      | nil => rw [processAux_lst_nil]; simp
      | cons x rest =>
        rw [processAux_lst_cons]
        have hx : szV x + remB fs st.load.cache ≤ n := by
          simp only [szI, szL] at hsz
          omega
        cases hres : processAux fs d sg n bd st (.val x) with
        | ok st1 =>
          show processAux fs d sg n bd st1 (.lst rest) ≠ .out
          have hm := processAux_mono fs d sg n bd st (.val x) st1
            (by rw [hres]; rfl)
          have h1 : remB fs st1.load.cache ≤ remB fs st.load.cache :=
            remB_mono fs hm
          apply ih bd st1 (.lst rest) habs
          simp only [szI, szL] at hsz ⊢
          omega
        | err e st1 => simp
        | out =>
          exact absurd hres (ih bd st (.val x) habs (by simp only [szI]; omega))
    | flds l =>
      cases l with
      | nil => rw [processAux_flds_nil]; simp
      | cons kv rest =>
        obtain ⟨k, v⟩ := kv
        rw [processAux_flds_cons]
        have hb : szV v + szF rest + remB fs st.load.cache ≤ n := by
          simp only [szI, szF] at hsz
          omega
        by_cases hk : k = "$ref"
        · rw [if_pos hk]
          apply ih bd st (.flds rest) habs
          simp only [szI]
          have := szV_pos v
          omega
        · rw [if_neg hk]
          cases hres : processAux fs d sg n bd st (.val v) with
          | ok st1 =>
            show processAux fs d sg n bd st1 (.flds rest) ≠ .out
            have hm := processAux_mono fs d sg n bd st (.val v) st1
              (by rw [hres]; rfl)
            have h1 : remB fs st1.load.cache ≤ remB fs st.load.cache :=
              remB_mono fs hm
            apply ih bd st1 (.flds rest) habs
            simp only [szI]
            omega
          | err e st1 => simp
          | out =>
            exact absurd hres
              (ih bd st (.val v) habs (by simp only [szI]; omega))

theorem refPrep_dup_good {fs : FS} {d : String} {sg : Bool} {bd : String}
    {st st2 : St} {flds : List (String × Json)}
    (hrp : refPrep fs d sg bd st flds = .dup st2) (hg : GoodSt st) :
    GoodSt st2 := by
  obtain ⟨r, href, hext, hstep⟩ := refPrep_dup hrp
  obtain ⟨rs, ld, hls, hld, hlog⟩ := refExternalStep_dup hstep
  refine ⟨by rw [hlog]; exact hg.1, ?_⟩
  intro p hp
  rw [hld]
  rw [hlog] at hp
  exact loadSchema_cacheLe hls p (hg.2 p hp)

theorem refPrep_go_good {fs : FS} {d : String} {sg : Bool} {bd : String}
    {st st2 : St} {rp : String} {rs : Json} {flds : List (String × Json)}
    (habs : isAbs bd = true)
    (hrp : refPrep fs d sg bd st flds = .go st2 rp rs) (hg : GoodSt st) :
    GoodSt st2 := by
  obtain ⟨r, href, hext, hstep⟩ := refPrep_go hrp
  obtain ⟨hrpEq, hck, ld, hls, hld, hlog⟩ := refExternalStep_go hstep
  have habs2 : isAbs (pathJoin bd r) = true := isAbs_pathJoin bd r habs
  obtain ⟨hfs, hldEq⟩ := loadSchema_abs_miss_some habs2 hck hls
  have hnotin : pathJoin bd r ∉ st.addLog := by
    intro hmem
    rw [hg.2 _ hmem] at hck
    exact absurd hck (by simp)
  constructor
  · rcases hlog with hsame | happ
    · rw [hsame]
      exact hg.1
    · rw [happ]
      rw [List.nodup_append]
      refine ⟨hg.1, List.nodup_singleton _, ?_⟩
      intro a ha hb
      rw [List.mem_singleton] at hb
      rw [hb] at ha
      exact hnotin ha
  · intro p hp
    rw [hld, hldEq]
    rcases hlog with hsame | happ
    · rw [hsame] at hp
      exact ahasKey_cons_of _ _ (hg.2 p hp)
    · rw [happ, List.mem_append, List.mem_singleton] at hp
      rcases hp with hp | hp
      · exact ahasKey_cons_of _ _ (hg.2 p hp)
      · rw [hp]
        exact ahasKey_cons_self _ _ _

/-- The registration-log invariant is preserved by the whole traversal
when the base directory is absolute. -/
theorem processAux_good (fs : FS) (d : String) (sg : Bool) :
    ∀ n bd st it st', isAbs bd = true → GoodSt st →
      stOf (processAux fs d sg n bd st it) = some st' → GoodSt st' := by
  intro n
  induction n with
  | zero =>
    intro bd st it st' habs hg h
    simp [processAux, stOf] at h
  | succ n ih =>
    intro bd st it st' habs hg h
    cases it with
    | val v =>
      cases v with
      | arr xs =>
        rw [processAux_arr] at h
        exact ih bd st _ st' habs hg h
      | obj flds =>
        cases hrp : refPrep fs d sg bd st flds with
        | skip =>
          rw [processAux_obj_skip hrp] at h
          exact ih bd st _ st' habs hg h
        | loadFail =>
          rw [processAux_obj_loadFail hrp] at h
          simp only [stOf, Option.some.injEq] at h
          rw [← h]
          exact hg
        | dup st2 =>
          rw [processAux_obj_dup hrp] at h
          simp only [stOf, Option.some.injEq] at h
          rw [← h]
          exact refPrep_dup_good hrp hg
        | go st2 rp rs =>
          rw [processAux_obj_go hrp] at h
          have hg2 : GoodSt st2 := refPrep_go_good habs hrp hg
          have habs2 : isAbs (dirname rp) = true := by
            obtain ⟨r, href, hext, hstep⟩ := refPrep_go hrp
            obtain ⟨hrpEq, -⟩ := refExternalStep_go hstep
            rw [hrpEq]
            exact isAbs_dirname _ (isAbs_pathJoin bd r habs)
          rcases stOf_seq h with ⟨st1, hres, h2⟩ | ⟨e, st1, hres, hst⟩
          · exact ih bd st1 _ st' habs
              (ih _ st2 _ st1 habs2 hg2 (by rw [hres]; rfl)) h2
          · rw [hst]
            exact ih _ st2 _ st1 habs2 hg2 (by rw [hres]; rfl)
      | null =>
        rw [processAux_atom (by simp)] at h
        simp only [stOf, Option.some.injEq] at h
        rw [← h]
        exact hg
      | bool b =>
        rw [processAux_atom (by simp)] at h
        simp only [stOf, Option.some.injEq] at h
        rw [← h]
        exact hg
      | num m =>
        rw [processAux_atom (by simp)] at h
        simp only [stOf, Option.some.injEq] at h
        rw [← h]
        exact hg
      | str s =>
        rw [processAux_atom (by simp)] at h
        simp only [stOf, Option.some.injEq] at h
        rw [← h]
        exact hg
    | lst xs =>
      cases xs with
      | nil =>
        rw [processAux_lst_nil] at h
        simp only [stOf, Option.some.injEq] at h
        rw [← h]
        exact hg
      | cons x rest =>
        rw [processAux_lst_cons] at h
        rcases stOf_seq h with ⟨st1, hres, h2⟩ | ⟨e, st1, hres, hst⟩
        · exact ih bd st1 _ st' habs
            (ih bd st _ st1 habs hg (by rw [hres]; rfl)) h2
        · rw [hst]
          exact ih bd st _ st1 habs hg (by rw [hres]; rfl)
    | flds l =>
      cases l with
      | nil =>
        rw [processAux_flds_nil] at h
        simp only [stOf, Option.some.injEq] at h
        rw [← h]
        exact hg
      | cons kv rest =>
        obtain ⟨k, v⟩ := kv
        rw [processAux_flds_cons] at h
        by_cases hk : k = "$ref"
        · rw [if_pos hk] at h
          exact ih bd st _ st' habs hg h
        · rw [if_neg hk] at h
          rcases stOf_seq h with ⟨st1, hres, h2⟩ | ⟨e, st1, hres, hst⟩
          · exact ih bd st1 _ st' habs
              (ih bd st _ st1 habs hg (by rw [hres]; rfl)) h2
          · rw [hst]
            exact ih bd st _ st1 habs hg (by rw [hres]; rfl)

theorem processAux_internal_ref (fs : FS) (d : String) (sg : Bool) (n : Nat)
    (bd : String) (st : St) (r : String) (h : refIsExternal sg r = false) :
    processAux fs d sg (n+3) bd st (.val (.obj [("$ref", .str r)])) = .ok st := by
  have ha : alookup [("$ref", Json.str r)] "$ref" = some (Json.str r) := by
    simp [alookup]
  have hrp : refPrep fs d sg bd st [("$ref", .str r)] = .skip := by
    unfold refPrep
    rw [ha]
    simp [h]
  rw [processAux_obj_skip hrp, processAux_flds_cons, if_pos rfl,
    processAux_flds_nil]

theorem loadReferencedSchemas_single_ref (fs : FS) (d : String) (sg : Bool)
    (st : St) (bd : String) (r : String) (h : refIsExternal sg r = false) :
    loadReferencedSchemas fs d sg st bd (.obj [("$ref", .str r)]) = .ok st := by
  unfold loadReferencedSchemas
  have hfe : szV (.obj [("$ref", Json.str r)]) + remB fs st.load.cache + 1 =
      remB fs st.load.cache + 2 + 3 := by
    simp [szV, szF]
    omega
  rw [hfe]
  exact processAux_internal_ref fs d sg _ bd st r h

theorem validateFile_isSome {docs : Docs} {vf : Json → Bool × List AjvError}
    {render : Json → Json → List AjvError → String} {schema : Json}
    {g : String} (h : (alookup docs g).isSome = true) :
    (validateFile docs vf render schema g).isSome = true := by
  unfold validateFile
  cases hd : alookup docs g with
  | none => rw [hd] at h; simp at h
  | some doc =>
    cases hp : doc.parsed with
    | none => simp [hp]
    | some data =>
      simp only [hp]
      split <;> simp

theorem runValidation_total {docs : Docs} {vf : Json → Bool × List AjvError}
    {render : Json → Json → List AjvError → String} {schema : Json}
    (files : List String) (h : ∀ g ∈ files, (alookup docs g).isSome = true) :
    ∃ rs, runValidation docs vf render schema files = some rs ∧
      rs.length = files.length ∧
      ∀ g ∈ files, ∃ r, validateFile docs vf render schema g = some r ∧
        r ∈ rs := by
  induction files with
  | nil => exact ⟨[], rfl, rfl, by simp⟩
  | cons g rest ih =>
    obtain ⟨r, hr⟩ := Option.isSome_iff_exists.mp (validateFile_isSome (h g (by simp)))
    obtain ⟨rs, hrs, hlen, hmem⟩ := ih (fun x hx => h x (by simp [hx]))
    refine ⟨r :: rs, ?_, by simp [hlen], ?_⟩
    · unfold runValidation
      rw [hr, hrs]
    · intro x hx
      rcases List.mem_cons.mp hx with hx | hx
      · exact ⟨r, by rw [hx]; exact hr, by simp⟩
      · obtain ⟨r2, hr2, hr2m⟩ := hmem x hx
        exact ⟨r2, hr2, by simp [hr2m]⟩

/-- Counterexample for C1 as originally stated: the source's cache-hit
check `if (cached)` is a truthiness test, so for a schema file whose
content parses to the falsy JSON value false (a legal boolean JSON
Schema) the test fails on the second call even though the document sits
in the cache, and the loader reads the same resolved path from disk a
second time — the read log grows to two entries for the same path,
contradicting the claimed at-most-one-read invariant. -/
theorem loadSchema_falsy_reread :
    loadSchema [("/sch/f.json", Json.bool false)] "/sch" "f.json"
        (LoadSt.mk [] []) =
      some (Json.bool false,
        LoadSt.mk [("/sch/f.json", Json.bool false)] ["/sch/f.json"]) ∧
    loadSchema [("/sch/f.json", Json.bool false)] "/sch" "f.json"
        (LoadSt.mk [("/sch/f.json", Json.bool false)] ["/sch/f.json"]) =
      some (Json.bool false,
        LoadSt.mk [("/sch/f.json", Json.bool false),
            ("/sch/f.json", Json.bool false)]
          ["/sch/f.json", "/sch/f.json"]) :=
  ⟨rfl, rfl⟩

/-- C1 (amended): after a loadSchema call has returned a document for
some identifier, the Schema Cache maps the resolved path to exactly
that document, and — provided the document is truthy as a JavaScript
value — a second loadSchema call whose identifier resolves to the same
path returns the same document with the loader state unchanged; in
particular the read log is unchanged, so the second call performs no
disk read. For a document parsing to a falsy JSON value the truthiness
test `if (cached)` fails and the path is read again, as the
counterexample shows. -/
theorem loadSchema_second_call_cached (fs : FS) (dir uri uri2 : String)
    (st : LoadSt) (j : Json) (st1 : LoadSt)
    (h1 : loadSchema fs dir uri st = some (j, st1))
    (hj : jsTruthy j = true)
    (h2 : resolveSchemaPath dir uri2 = resolveSchemaPath dir uri) :
    alookup st1.cache (resolveSchemaPath dir uri) = some j ∧
      loadSchema fs dir uri2 st1 = some (j, st1) := by
  simp only [loadSchema] at h1
  have hmain : alookup st1.cache (resolveSchemaPath dir uri) = some j := by
    cases hc : alookup st.cache (resolveSchemaPath dir uri) with
    | some cached =>
      simp only [hc] at h1
      by_cases ht : jsTruthy cached = true
      · rw [if_pos ht] at h1
        injection h1 with h3
        injection h3 with h4 h5
        rw [← h5, ← h4]
        exact hc
      · rw [if_neg ht] at h1
        obtain ⟨-, hld⟩ := loadSchemaRead_some h1
        rw [hld]
        simp [alookup]
    | none =>
      simp only [hc] at h1
      obtain ⟨-, hld⟩ := loadSchemaRead_some h1
      rw [hld]
      simp [alookup]
  refine ⟨hmain, ?_⟩
  simp only [loadSchema, h2, hmain, hj, if_true]

/-- Witness for C1's amended claim at a concrete input: the first call
resolves an https identifier to /sch/f.json and reads it; the document
(an object) is truthy, so a second call through the bare relative name
resolving to the same path is served entirely from the cache. -/
theorem loadSchema_second_call_cached_witness :
    loadSchema [("/sch/f.json", Json.obj [])] "/sch" "https://x.org/a/f.json"
        (LoadSt.mk [] []) =
      some (Json.obj [], LoadSt.mk [("/sch/f.json", Json.obj [])]
        ["/sch/f.json"]) ∧
    jsTruthy (Json.obj []) = true ∧
    (alookup (LoadSt.mk [("/sch/f.json", Json.obj [])]
        ["/sch/f.json"]).cache
        (resolveSchemaPath "/sch" "https://x.org/a/f.json") =
      some (Json.obj []) ∧
      loadSchema [("/sch/f.json", Json.obj [])] "/sch" "f.json"
        (LoadSt.mk [("/sch/f.json", Json.obj [])] ["/sch/f.json"]) =
      some (Json.obj [], LoadSt.mk [("/sch/f.json", Json.obj [])]
        ["/sch/f.json"])) :=
  ⟨rfl, rfl, loadSchema_second_call_cached
    [("/sch/f.json", Json.obj [])] "/sch" "https://x.org/a/f.json" "f.json"
    (LoadSt.mk [] []) (Json.obj [])
    (LoadSt.mk [("/sch/f.json", Json.obj [])] ["/sch/f.json"])
    rfl rfl rfl⟩

/-- C5: every external $ref discovered by the traversal is resolved
against the current base directory, and the recursive walk of a loaded
referenced file uses that file's own directory as its new base — so a
$ref found inside a referenced schema file is resolved against the
directory of the file containing it, not the root schema's directory.
Universally over all filesystems, variants, states and documents:
whenever the $ref step loads a referenced schema, the discovered $ref
string r was joined to the current base directory bd (the loaded path
is pathJoin bd r, and with an absolute base the disk read performed is
exactly that path), and the continuation walks the loaded schema with
dirname of that resolved path as the base directory for its own $refs.
A concrete run shows the consequence: with the root (based at /s)
referencing sub/a.json and a.json referencing b.json, the resolver
reads /s/sub/a.json and then /s/sub/b.json — never the decoy /s/b.json
that the root's directory would produce. -/
theorem nested_ref_resolved_in_containing_dir :
    (∀ (fs : FS) (d : String) (sg : Bool) (bd : String) (st st2 : St)
       (flds : List (String × Json)) (rp : String) (rs : Json) (r : String),
       refPrep fs d sg bd st flds = .go st2 rp rs →
       alookup flds "$ref" = some (.str r) →
       refIsExternal sg r = true ∧ rp = pathJoin bd r ∧
         (isAbs bd = true →
           st2.load.reads = st.load.reads ++ [pathJoin bd r])) ∧
    (∀ (fs : FS) (d : String) (sg : Bool) (n : Nat) (bd : String)
       (st st2 : St) (flds : List (String × Json)) (rp : String) (rs : Json),
       refPrep fs d sg bd st flds = .go st2 rp rs →
       processAux fs d sg (n+1) bd st (.val (.obj flds)) =
         (match processAux fs d sg n (dirname rp) st2 (.val rs) with
          | .ok st1 => processAux fs d sg n bd st1 (.flds flds)
          | e => e)) ∧
    (∀ v : Json, isAtom v = true →
       readsOf (loadReferencedSchemas
           [("/s/sub/a.json", .obj [("$ref", .str "b.json")]),
            ("/s/sub/b.json", v), ("/s/b.json", .num 99)]
           "/sch" false emptySt "/s" (.obj [("$ref", .str "sub/a.json")])) =
         some ["/s/sub/a.json", "/s/sub/b.json"] ∧
       ("/s/b.json" : String) ∉ ["/s/sub/a.json", "/s/sub/b.json"]) := by
  refine ⟨?_, ?_, ?_⟩
  · intro fs d sg bd st st2 flds rp rs r hrp href
    obtain ⟨r', href', hext', hstep⟩ := refPrep_go hrp
    rw [href] at href'
    injection href' with h9
    injection h9 with h10
    subst h10
    obtain ⟨hrpEq, hck, ld, hls, hld, hlog⟩ := refExternalStep_go hstep
    refine ⟨hext', hrpEq, ?_⟩
    intro habs
    have habs2 := isAbs_pathJoin bd r habs
    rw [loadSchema_abs_miss habs2 hck] at hls
    obtain ⟨-, hldEq⟩ := loadSchemaRead_some hls
    rw [hld, hldEq]
  · intro fs d sg n bd st st2 flds rp rs hrp
    exact processAux_obj_go hrp
  · intro v hv
    cases v with
    | null => exact ⟨rfl, by decide⟩
    | bool b => exact ⟨rfl, by decide⟩
    | num m => exact ⟨rfl, by decide⟩
    | str s => exact ⟨rfl, by decide⟩
    | arr xs => simp [isAtom] at hv
    | obj flds => simp [isAtom] at hv

/-- Witness for C5 at a concrete go step (the object carrying
$ref b.json processed at base directory /s/sub) and at the concrete
decoy scenario with inner schema null. -/
theorem nested_ref_resolved_in_containing_dir_witness :
    (refIsExternal false "b.json" = true ∧
      "/s/sub/b.json" = pathJoin "/s/sub" "b.json" ∧
      (St.mk [("b.json", Json.null)] ["/s/sub/b.json"]
          (LoadSt.mk [("/s/sub/b.json", Json.null)]
            ["/s/sub/b.json"])).load.reads =
        emptySt.load.reads ++ [pathJoin "/s/sub" "b.json"]) ∧
    processAux [("/s/sub/b.json", Json.null)] "/sch" false 6 "/s/sub"
        emptySt (.val (.obj [("$ref", Json.str "b.json")])) =
      (match processAux [("/s/sub/b.json", Json.null)] "/sch" false 5
          (dirname "/s/sub/b.json")
          (St.mk [("b.json", Json.null)] ["/s/sub/b.json"]
            (LoadSt.mk [("/s/sub/b.json", Json.null)] ["/s/sub/b.json"]))
          (.val Json.null) with
       | .ok st1 => processAux [("/s/sub/b.json", Json.null)] "/sch" false 5
           "/s/sub" st1 (.flds [("$ref", Json.str "b.json")])
       | e => e) ∧
    (readsOf (loadReferencedSchemas
        [("/s/sub/a.json", .obj [("$ref", .str "b.json")]),
         ("/s/sub/b.json", Json.null), ("/s/b.json", .num 99)]
        "/sch" false emptySt "/s" (.obj [("$ref", .str "sub/a.json")])) =
      some ["/s/sub/a.json", "/s/sub/b.json"] ∧
    ("/s/b.json" : String) ∉ ["/s/sub/a.json", "/s/sub/b.json"]) :=
  have h1 := nested_ref_resolved_in_containing_dir.1
    [("/s/sub/b.json", Json.null)] "/sch" false "/s/sub" emptySt
    (St.mk [("b.json", Json.null)] ["/s/sub/b.json"]
      (LoadSt.mk [("/s/sub/b.json", Json.null)] ["/s/sub/b.json"]))
    [("$ref", Json.str "b.json")] "/s/sub/b.json" Json.null "b.json"
    rfl rfl
  ⟨⟨h1.1, h1.2.1, h1.2.2 (by decide)⟩,
   nested_ref_resolved_in_containing_dir.2.1
    [("/s/sub/b.json", Json.null)] "/sch" false 5 "/s/sub" emptySt
    (St.mk [("b.json", Json.null)] ["/s/sub/b.json"]
      (LoadSt.mk [("/s/sub/b.json", Json.null)] ["/s/sub/b.json"]))
    [("$ref", Json.str "b.json")] "/s/sub/b.json" Json.null rfl,
   nested_ref_resolved_in_containing_dir.2.2 Json.null rfl⟩

/-- C6: the Schema Loader's resolution rule. An identifier starting with
http:// or https:// is mapped to the final path segment of its URL path
inside the local schema root (as in the source's own example, the
designtokens.org format.json URL maps to format.json in the schema
directory); an identifier starting with / is used unchanged as an
absolute path; anything else is resolved relative to the schema root.
No network request exists in the loader: a successful load either
touches no file (cache hit) or reads exactly the locally resolved path. -/
theorem loadSchema_resolution_rule (dir uri : String) :
    ((strStartsWith uri "https://" = true ∨ strStartsWith uri "http://" = true) →
      resolveSchemaPath dir uri =
        pathJoin dir (lastSegment (urlPathname uri))) ∧
    (strStartsWith uri "https://" = false →
      strStartsWith uri "http://" = false →
      strStartsWith uri "/" = true → resolveSchemaPath dir uri = uri) ∧
    (strStartsWith uri "https://" = false →
      strStartsWith uri "http://" = false →
      strStartsWith uri "/" = false →
      resolveSchemaPath dir uri = pathJoin dir uri) ∧
    (∀ (fs : FS) (st : LoadSt) (j : Json) (st' : LoadSt),
      loadSchema fs dir uri st = some (j, st') →
      st'.reads = st.reads ∨
        st'.reads = st.reads ++ [resolveSchemaPath dir uri]) ∧
    resolveSchemaPath "/app/schemas"
        "https://www.designtokens.org/schemas/2025.10/format.json" =
      "/app/schemas/format.json" := by
  refine ⟨?_, ?_, ?_, ?_, by decide⟩
  · intro h
    unfold resolveSchemaPath
    rcases h with h | h <;> simp [h]
  · intro h1 h2 h3
    unfold resolveSchemaPath
    simp [h1, h2, h3]
  · intro h1 h2 h3
    unfold resolveSchemaPath
    simp [h1, h2, h3]
  · intro fs st j st' h
    simp only [loadSchema] at h
    cases hc : alookup st.cache (resolveSchemaPath dir uri) with
    | some cached =>
      simp only [hc] at h
      by_cases ht : jsTruthy cached = true
      · rw [if_pos ht] at h
        injection h with h3
        injection h3 with h4 h5
        rw [← h5]
        exact Or.inl rfl
      · rw [if_neg ht] at h
        obtain ⟨-, hld⟩ := loadSchemaRead_some h
        rw [hld]
        exact Or.inr rfl
    | none =>
      simp only [hc] at h
      obtain ⟨-, hld⟩ := loadSchemaRead_some h
      rw [hld]
      exact Or.inr rfl

/-- Witness for C6 at concrete identifiers of all three shapes. -/
theorem loadSchema_resolution_rule_witness :
    resolveSchemaPath "/sch" "https://x.org/a/f.json" =
      pathJoin "/sch" (lastSegment (urlPathname "https://x.org/a/f.json")) ∧
    resolveSchemaPath "/sch" "/abs/s.json" = "/abs/s.json" ∧
    resolveSchemaPath "/sch" "rel.json" = pathJoin "/sch" "rel.json" ∧
    resolveSchemaPath "/app/schemas"
        "https://www.designtokens.org/schemas/2025.10/format.json" =
      "/app/schemas/format.json" :=
  ⟨(loadSchema_resolution_rule "/sch" "https://x.org/a/f.json").1
     (Or.inl (by decide)),
   (loadSchema_resolution_rule "/sch" "/abs/s.json").2.1 (by decide)
     (by decide) (by decide),
   (loadSchema_resolution_rule "/sch" "rel.json").2.2.1 (by decide)
     (by decide) (by decide),
   (loadSchema_resolution_rule "/app/schemas"
     "https://www.designtokens.org/schemas/2025.10/format.json").2.2.2.2⟩

/-- C7: a $ref starting with the hash character is purely internal in
both validator variants: the classifier marks it internal, and the
traversal of an object carrying such a $ref completes without touching
the state at all — no cache entry, no disk read, no registration. -/
theorem internal_ref_never_loads (sg : Bool) (r : String)
    (h : strStartsWith r "#" = true) :
    refIsExternal sg r = false ∧
    ∀ (fs : FS) (d : String) (st : St) (bd : String),
      loadReferencedSchemas fs d sg st bd (.obj [("$ref", .str r)]) = .ok st := by
  have hclass : refIsExternal sg r = false := by
    cases sg with
    | false => simp [refIsExternal, refIsExternalGlob, h]
    | true => simp [refIsExternal, refIsExternalSingle, h]
  exact ⟨hclass, fun fs d st bd =>
    loadReferencedSchemas_single_ref fs d sg st bd r hclass⟩

/-- Witness for C7 on the internal reference "#/defs/x" in both
variants, on a filesystem that does contain a same-named entry (which is
still not read). -/
theorem internal_ref_never_loads_witness :
    strStartsWith "#/defs/x" "#" = true ∧
    refIsExternal true "#/defs/x" = false ∧
    refIsExternal false "#/defs/x" = false ∧
    loadReferencedSchemas [("/s/#/defs/x", Json.obj [])] "/sch" true emptySt
        "/s" (.obj [("$ref", .str "#/defs/x")]) = .ok emptySt ∧
    loadReferencedSchemas [("/s/#/defs/x", Json.obj [])] "/sch" false emptySt
        "/s" (.obj [("$ref", .str "#/defs/x")]) = .ok emptySt :=
  ⟨by decide,
   (internal_ref_never_loads true "#/defs/x" (by decide)).1,
   (internal_ref_never_loads false "#/defs/x" (by decide)).1,
   (internal_ref_never_loads true "#/defs/x" (by decide)).2
     [("/s/#/defs/x", Json.obj [])] "/sch" emptySt "/s",
   (internal_ref_never_loads false "#/defs/x" (by decide)).2
     [("/s/#/defs/x", Json.obj [])] "/sch" emptySt "/s"⟩

/-- C9: the bundled single-file script and its TypeScript source compute
the same validation result for every input — same validity and same flat
diagnostic — even though the bundled validateFile takes two arguments
while the source declares three: the extra schema parameter is unused by
the flat error formatter, so dropping it cannot change the result. -/
theorem validateFile_src_dist_eq (docs : Docs)
    (vf : Json → Bool × List AjvError) (schema : Json) (file : String) :
    validateFileSrc docs vf schema file = validateFileDist docs vf file := rfl

/-- C10: in the glob-based variant, a glob pattern matching zero files
makes validate return true without validating anything, so main exits
with code 0. -/
theorem validate_no_files_ok (docs : Docs) (vf : Json → Bool × List AjvError)
    (render : Json → Json → List AjvError → String) (schema : Json) :
    validate docs vf render schema [] = some true ∧ exitCode true = 0 :=
  ⟨rfl, rfl⟩

/-- C3: the two validator variants classify $ref values differently. In
the single-file variant any $ref containing the hash character anywhere
is treated as internal and never triggers a file load — a traversal of
an object carrying the combined ref file.json#/defs/x completes with the
state untouched. In the glob variant only $refs starting with the hash
are internal, so the same combined ref is classified external there and
a load is performed for its resolved path. -/
theorem ref_classification_divergence :
    (∀ r : String, strContainsChar r '#' = true →
      refIsExternal true r = false) ∧
    (∀ r : String, refIsExternal false r = !(strStartsWith r "#")) ∧
    (∀ (fs : FS) (d : String) (st : St) (bd : String),
      loadReferencedSchemas fs d true st bd
        (.obj [("$ref", .str "file.json#/defs/x")]) = .ok st) ∧
    refIsExternal false "file.json#/defs/x" = true ∧
    readsOf (loadReferencedSchemas [("/s/file.json#/defs/x", Json.obj [])]
        "/sch" false emptySt "/s"
        (.obj [("$ref", .str "file.json#/defs/x")])) =
      some ["/s/file.json#/defs/x"] := by
  refine ⟨?_, ?_, ?_, by decide, by decide⟩
  · intro r h
    simp [refIsExternal, refIsExternalSingle, h]
  · intro r
    rfl
  · intro fs d st bd
    exact loadReferencedSchemas_single_ref fs d true st bd _ (by decide)

/-- Witness for C3 at the combined reference file.json#/defs/x. -/
theorem ref_classification_divergence_witness :
    strContainsChar "file.json#/defs/x" '#' = true ∧
    refIsExternal true "file.json#/defs/x" = false ∧
    refIsExternal false "file.json#/defs/x" =
      !(strStartsWith "file.json#/defs/x" "#") ∧
    loadReferencedSchemas [] "/sch" true emptySt "/s"
      (.obj [("$ref", .str "file.json#/defs/x")]) = .ok emptySt :=
  ⟨by decide,
   ref_classification_divergence.1 "file.json#/defs/x" (by decide),
   ref_classification_divergence.2.1 "file.json#/defs/x",
   ref_classification_divergence.2.2.1 [] "/sch" emptySt "/s"⟩

/-- C8: a validation target that is not valid JSON yields an invalid
result carrying an Invalid JSON diagnostic instead of throwing; the
batch loop still produces a result for every file; and the overall
outcome of validate is false, which main maps to exit code 1. -/
theorem invalid_json_target_nonfatal (docs : Docs)
    (vf : Json → Bool × List AjvError)
    (render : Json → Json → List AjvError → String) (schema : Json)
    (files : List String) (f : String) (doc : TargetDoc)
    (hdoc : alookup docs f = some doc) (hbad : doc.parsed = none)
    (hmem : f ∈ files)
    (hread : ∀ g ∈ files, (alookup docs g).isSome = true) :
    validateFile docs vf render schema f =
      some { file := f, valid := false,
             errors := some ("Invalid JSON: " ++ doc.parseErr) } ∧
    (∃ rs, runValidation docs vf render schema files = some rs ∧
      rs.length = files.length ∧
      { file := f, valid := false,
        errors := some ("Invalid JSON: " ++ doc.parseErr) } ∈ rs) ∧
    validate docs vf render schema files = some false ∧
    exitCode false = 1 := by
  have hvf : validateFile docs vf render schema f =
      some { file := f, valid := false,
             errors := some ("Invalid JSON: " ++ doc.parseErr) } := by
    simp [validateFile, hdoc, hbad]
  obtain ⟨rs, hrs, hlen, hall⟩ := runValidation_total files hread
  obtain ⟨r, hr, hrmem⟩ := hall f hmem
  have hreq : r = FileValidationResult.mk f false
      (some ("Invalid JSON: " ++ doc.parseErr)) := by
    rw [hvf] at hr
    injection hr with he
    exact he.symm
  have hne : files.isEmpty = false := by
    cases files with
    | nil => cases hmem
    | cons a l => rfl
  have hfalse : rs.all (fun x => x.valid) = false := by
    by_cases hb : rs.all (fun x => x.valid) = true
    · have hx := List.all_eq_true.mp hb r hrmem
      rw [hreq] at hx
      simp at hx
    · simpa using hb
  refine ⟨hvf, ⟨rs, hrs, hlen, by rw [← hreq]; exact hrmem⟩, ?_, rfl⟩
  unfold validate
  simp [hne, hrs, hfalse]

/-- Witness for C8: a two-file batch whose first target is malformed
JSON; the loop still yields two results and the batch fails overall. -/
theorem invalid_json_target_nonfatal_witness :
    validateFile [("bad.json", TargetDoc.mk none "oops"),
        ("good.json", TargetDoc.mk (some Json.null) "")]
      (fun _ => (true, [])) (fun _ _ _ => "") Json.null "bad.json" =
      some { file := "bad.json", valid := false,
             errors := some ("Invalid JSON: " ++ "oops") } ∧
    (∃ rs, runValidation [("bad.json", TargetDoc.mk none "oops"),
        ("good.json", TargetDoc.mk (some Json.null) "")]
      (fun _ => (true, [])) (fun _ _ _ => "") Json.null
      ["bad.json", "good.json"] = some rs ∧
      rs.length = (["bad.json", "good.json"] : List String).length ∧
      { file := "bad.json", valid := false,
        errors := some ("Invalid JSON: " ++ "oops") } ∈ rs) ∧
    validate [("bad.json", TargetDoc.mk none "oops"),
        ("good.json", TargetDoc.mk (some Json.null) "")]
      (fun _ => (true, [])) (fun _ _ _ => "") Json.null
      ["bad.json", "good.json"] = some false ∧
    exitCode false = 1 :=
  invalid_json_target_nonfatal
    [("bad.json", TargetDoc.mk none "oops"),
     ("good.json", TargetDoc.mk (some Json.null) "")]
    (fun _ => (true, [])) (fun _ _ _ => "") Json.null
    ["bad.json", "good.json"] "bad.json" (TargetDoc.mk none "oops")
    rfl rfl (by decide) (by decide)

/-- C2: on any filesystem containing a cyclic pair of schema files — A
references B and B references A through external $refs — and for any
root schema, loadReferencedSchemas terminates (it never exhausts the
fuel budget computed from the sizes of the reachable files: each
distinct resolved path is processed at most once thanks to the cache
check, and the filesystem is finite) and registers neither A nor B with
the engine more than once, whether the traversal completes or aborts
with an error. -/
theorem loadReferencedSchemas_cycle_safe (fs : FS) (d : String) (sg : Bool)
    (st0 : St) (bd : String) (root : Json) (pA pB rA rB : String)
    (jA jB : Json) (habs : isAbs bd = true) (hlog0 : st0.addLog = [])
    (hA : alookup fs pA = some jA) (hB : alookup fs pB = some jB)
    (hAB : hasRefTo jA rB = true) (hABp : pathJoin (dirname pA) rB = pB)
    (hBA : hasRefTo jB rA = true) (hBAp : pathJoin (dirname pB) rA = pA) :
    loadReferencedSchemas fs d sg st0 bd root ≠ .out ∧
      ∀ st', stOf (loadReferencedSchemas fs d sg st0 bd root) = some st' →
        st'.addLog.count pA ≤ 1 ∧ st'.addLog.count pB ≤ 1 := by
  constructor
  · unfold loadReferencedSchemas
    apply processAux_fuel fs d sg _ bd st0 (.val root) habs
    simp only [szI]
    omega
  · intro st' h
    unfold loadReferencedSchemas at h
    have hg0 : GoodSt st0 := by
      constructor
      · rw [hlog0]
        exact List.nodup_nil
      · rw [hlog0]
        intro p hp
        cases hp
    have hg := processAux_good fs d sg _ bd st0 (.val root) st' habs hg0 h
    have hcount := List.nodup_iff_count_le_one.mp hg.1
    exact ⟨hcount pA, hcount pB⟩

/-- Witness for C2 on the concrete cycle a.json - b.json: the run
terminates and each file is registered exactly once. -/
theorem loadReferencedSchemas_cycle_safe_witness :
    loadReferencedSchemas fsW2 "/sch" false emptySt "/s" rootW2 ≠ .out ∧
      stW2.addLog.count "/s/a.json" ≤ 1 ∧
      stW2.addLog.count "/s/b.json" ≤ 1 :=
  have h := loadReferencedSchemas_cycle_safe fsW2 "/sch" false emptySt "/s"
    rootW2 "/s/a.json" "/s/b.json" "a.json" "b.json" jAW jBW
    (by decide) rfl rfl rfl (by decide) (by decide) (by decide) (by decide)
  ⟨h.1, h.2 stW2 rfl⟩

/-- Counterexample for C4: the existence check does not prevent every
"schema already exists" failure. The run first registers
/s/common.json under the key common.json; later /s/sub/common.json is
reached through the same literal $ref string, its $id x-schema passes
the getSchema existence check, yet addSchema is invoked with the
already-used key common.json and the engine throws. -/
theorem registration_guard_insufficient :
    isDupErr (loadReferencedSchemas fsDup "/sch" false emptySt "/s" rootDup) =
      true := by decide

theorem addSchema_success (reg : Registry) (s : Json) (r : String)
    (hg : (getSchema reg (schemaIdOf s r)).isSome = false)
    (hk : ahasKey reg r = false) :
    ∃ reg', addSchema reg s r = some reg' ∧
      getSchema reg' (schemaIdOf s r) = some s ∧
      getSchema reg' r = some s := by
  cases hid : jsonField s "$id" with
  | none =>
    have hsid : schemaIdOf s r = r := by simp [schemaIdOf, hid]
    refine ⟨(r, s) :: reg, ?_, ?_, ?_⟩
    · simp [addSchema, hk, hid]
    · rw [hsid]
      simp [getSchema, alookup]
    · simp [getSchema, alookup]
  | some v =>
    cases v with
    | str id =>
      by_cases h0 : id = ""
      · have hsid : schemaIdOf s r = r := by simp [schemaIdOf, hid, h0]
        refine ⟨(r, s) :: reg, ?_, ?_, ?_⟩
        · simp [addSchema, hk, hid, h0]
        · rw [hsid]
          simp [getSchema, alookup]
        · simp [getSchema, alookup]
      · have hsid : schemaIdOf s r = id := by simp [schemaIdOf, hid, h0]
        have hkid : ahasKey reg id = false := by
          rw [hsid] at hg
          exact hg
        refine ⟨(r, s) :: (id, s) :: reg, ?_, ?_, ?_⟩
        · simp [addSchema, hk, hid, h0, hkid]
        · rw [hsid]
          by_cases hri : r = id <;> simp [getSchema, alookup, hri]
        · simp [getSchema, alookup]
    | null =>
      have hsid : schemaIdOf s r = r := by simp [schemaIdOf, hid]
      refine ⟨(r, s) :: reg, ?_, ?_, ?_⟩
      · simp [addSchema, hk, hid]
      · rw [hsid]
        simp [getSchema, alookup]
      · simp [getSchema, alookup]
    | bool b =>
      have hsid : schemaIdOf s r = r := by simp [schemaIdOf, hid]
      refine ⟨(r, s) :: reg, ?_, ?_, ?_⟩
      · simp [addSchema, hk, hid]
      · rw [hsid]
        simp [getSchema, alookup]
      · simp [getSchema, alookup]
    | num m =>
      have hsid : schemaIdOf s r = r := by simp [schemaIdOf, hid]
      refine ⟨(r, s) :: reg, ?_, ?_, ?_⟩
      · simp [addSchema, hk, hid]
      · rw [hsid]
        simp [getSchema, alookup]
      · simp [getSchema, alookup]
    | arr xs =>
      have hsid : schemaIdOf s r = r := by simp [schemaIdOf, hid]
      refine ⟨(r, s) :: reg, ?_, ?_, ?_⟩
      · simp [addSchema, hk, hid]
      · rw [hsid]
        simp [getSchema, alookup]
      · simp [getSchema, alookup]
    | obj flds =>
      have hsid : schemaIdOf s r = r := by simp [schemaIdOf, hid]
      refine ⟨(r, s) :: reg, ?_, ?_, ?_⟩
      · simp [addSchema, hk, hid]
      · rw [hsid]
        simp [getSchema, alookup]
      · simp [getSchema, alookup]

/-- C4 (amended): for every newly loaded referenced schema, the
resolver computes an identifier equal to the schema's declared $id
(when it is a non-empty string) and the literal $ref string otherwise,
and checks the engine registry for that identifier before registering.
When the identifier is present, nothing is re-registered. When it is
absent and the literal $ref string is also still free, addSchema
succeeds and the schema becomes retrievable both under that identifier
and under the $ref string. But the check does not rule out every
"schema already exists" failure: when the identifier is absent while
the literal $ref string is already a registry key, addSchema is still
invoked with that key and throws. -/
theorem registration_check_and_identifier (st : St) (ld : LoadSt) (s : Json)
    (r rp : String) :
    ((getSchema st.ajv (schemaIdOf s r)).isSome = true →
      refRegister st ld s r rp = .go { st with load := ld } rp s) ∧
    ((getSchema st.ajv (schemaIdOf s r)).isSome = false →
      ahasKey st.ajv r = false →
      (addSchema st.ajv s r).isSome = true ∧
      getSchema ((addSchema st.ajv s r).getD []) (schemaIdOf s r) = some s ∧
      getSchema ((addSchema st.ajv s r).getD []) r = some s ∧
      refRegister st ld s r rp =
        .go (St.mk ((addSchema st.ajv s r).getD []) (st.addLog ++ [rp]) ld)
          rp s) ∧
    ((getSchema st.ajv (schemaIdOf s r)).isSome = false →
      ahasKey st.ajv r = true →
      addSchema st.ajv s r = none ∧
      refRegister st ld s r rp = .dup { st with load := ld }) := by
  refine ⟨?_, ?_, ?_⟩
  · intro hg
    unfold refRegister
    rw [if_pos hg]
  · intro hg hk
    obtain ⟨reg', ha, h1, h2⟩ := addSchema_success st.ajv s r hg hk
    rw [ha]
    refine ⟨rfl, by simpa using h1, by simpa using h2, ?_⟩
    unfold refRegister
    rw [if_neg (by simp [hg]), ha]
    exact rfl
  · intro hg hk
    have ha : addSchema st.ajv s r = none := by
      simp [addSchema, hk]
    refine ⟨ha, ?_⟩
    unfold refRegister
    rw [if_neg (by simp [hg]), ha]

/-- Witness for C4's amended claim: a schema declaring $id idX is
registered into an engine containing an unrelated entry; the guard has
checked idX, and the schema ends up retrievable under both idX and its
$ref string. -/
theorem registration_check_and_identifier_witness :
    (addSchema [("other.json", Json.obj [])]
        (Json.obj [("$id", Json.str "idX")]) "r.json").isSome = true ∧
    getSchema ((addSchema [("other.json", Json.obj [])]
        (Json.obj [("$id", Json.str "idX")]) "r.json").getD [])
      (schemaIdOf (Json.obj [("$id", Json.str "idX")]) "r.json") =
      some (Json.obj [("$id", Json.str "idX")]) ∧
    getSchema ((addSchema [("other.json", Json.obj [])]
        (Json.obj [("$id", Json.str "idX")]) "r.json").getD []) "r.json" =
      some (Json.obj [("$id", Json.str "idX")]) ∧
    refRegister (St.mk [("other.json", Json.obj [])] [] (LoadSt.mk [] []))
        (LoadSt.mk [] []) (Json.obj [("$id", Json.str "idX")]) "r.json"
        "/s/r.json" =
      .go (St.mk ((addSchema [("other.json", Json.obj [])]
          (Json.obj [("$id", Json.str "idX")]) "r.json").getD [])
        ["/s/r.json"] (LoadSt.mk [] [])) "/s/r.json"
        (Json.obj [("$id", Json.str "idX")]) :=
  (registration_check_and_identifier
    (St.mk [("other.json", Json.obj [])] [] (LoadSt.mk [] []))
    (LoadSt.mk [] []) (Json.obj [("$id", Json.str "idX")]) "r.json"
    "/s/r.json").2.1 (by decide) (by decide)
